import Mathlib

/-!
# Verification of the course-table extraction engine

A shallow embedding, in Lean 4, of the extraction core implemented in
`backend/landingai_service.py` (`_regex_extract_courses`,
`_post_process_courses`, `extract_courses`), together with proofs of the
specified properties.

Text is modelled as `List Char`.  The Python regular expressions used by the
source are embedded as specialized recursive matchers that implement exactly
the backtracking semantics of the three patterns involved (all compiled with
`re.IGNORECASE`):

* `pattern_full    = \b([A-Z]{2,4})\s+(\d{3})\s+([A-Za-z\s]+?)\s+(\d)\s+(Fall|Spring)\s+(\d{4})`
* `pattern_partial = \b([A-Z]{2,4})\s+([A-Z][A-Za-z\s]+?)\s+(\d)\s+(Fall|Spring)\s+(\d{4})`
* the notes pattern `{semester}\s+(PR:[^A-Z]*(?:[A-Z]{2,4}\s+\d{3}|CHECKLIST))`

Two facts about these patterns make a deterministic implementation exactly
equivalent to Python's backtracking engine:

1. every greedy quantified class (`[A-Z]{2,4}`, `\s+`, `[^A-Z]*`, `\d{n}`)
   is immediately followed by a sub-pattern whose first character is
   *disjoint* from the quantified class, so the greedy-maximal (for `{2,4}`:
   whole-run-capped) choice is the only one that can succeed; and
2. the single lazy quantifier `[A-Za-z\s]+?` is implemented by trying the
   shortest extent first, exactly as Python does.

Under `re.IGNORECASE`, `[A-Z]` matches any ASCII letter and `[^A-Z]` rejects
any ASCII letter; these facts of the Python `re` module are baked into the
character predicates below.
-/

namespace Cisat

/-- ASCII uppercase letter. -/
def isUpper (c : Char) : Bool := 'A' ≤ c && c ≤ 'Z'

/-- ASCII lowercase letter. -/
def isLower (c : Char) : Bool := 'a' ≤ c && c ≤ 'z'

/-- ASCII letter: what the class `[A-Z]` (and `[A-Za-z]`) matches under
`re.IGNORECASE`. -/
def isAlpha (c : Char) : Bool := isUpper c || isLower c

/-- ASCII digit, the class `\d` on the inputs in scope. -/
def isDigit (c : Char) : Bool := '0' ≤ c && c ≤ '9'

/-- Python's `\s` class (ASCII portion plus NBSP; the source texts contain no
other Unicode whitespace). -/
def isSpace (c : Char) : Bool :=
  c = ' ' || c = '\t' || c = '\n' || c = '\r' ||
  c = '\x0b' || c = '\x0c' || c = ' '

/-- Python's `\w` class (ASCII portion), used for the `\b` word boundary. -/
def isWordChar (c : Char) : Bool := isAlpha c || isDigit c || c = '_'

/-- ASCII lowercase fold, the case folding `str.lower()` / `re.IGNORECASE`
performs on the ASCII inputs in scope. -/
def lower (c : Char) : Char := if isUpper c then Char.ofNat (c.toNat + 32) else c

/-- Case-insensitive character comparison (`re.IGNORECASE`). -/
def ciEq (a b : Char) : Bool := lower a = lower b

/-- `str.lower()` on a whole text. -/
def lowerStr (l : List Char) : List Char := l.map lower

/-- Python `str.strip()`: remove leading and trailing whitespace. -/
def pyStrip (l : List Char) : List Char :=
  ((l.dropWhile isSpace).reverse.dropWhile isSpace).reverse

/-- Python's substring test `needle in hay` (contiguous; the empty string is
a substring of everything). -/
def containsSub (needle : List Char) : List Char → Bool
  | [] => needle.isEmpty
  | c :: rest => needle.isPrefixOf (c :: rest) || containsSub needle rest

/-! ## Text normalizer

`clean_text = re.sub(r'<[^>]+>', ' ', markdown)`; then `html.unescape`;
then `re.sub(r'\s+', ' ', clean_text)`. -/

/-- Scan for the first `'>'`; on success return the suffix after it.
Models the span of `[^>]+>` inside a markup tag. -/
def findTagEnd : List Char → Option (List Char)
  | [] => none
  | c :: rest => if c = '>' then some rest else findTagEnd rest

/-- `re.sub(r'<[^>]+>', ' ', text)`: each leftmost occurrence of `<`,
followed by at least one non-`>` character and a closing `>`, is replaced
by a single space; an unmatched `<` is kept literally.  The fuel argument
is the text length, enough for the non-structural jump past a tag. -/
def stripTagsAux : Nat → List Char → List Char
  | 0, l => l
  | _ + 1, [] => []
  | fuel + 1, c :: rest =>
    if c = '<' then
      match rest with
      | [] => ['<']
      | d :: rest' =>
        if d = '>' then '<' :: stripTagsAux fuel rest
        else
          match findTagEnd rest' with
          | some suffix => ' ' :: stripTagsAux fuel suffix
          | none => '<' :: stripTagsAux fuel rest
    else c :: stripTagsAux fuel rest

def stripTags (l : List Char) : List Char := stripTagsAux l.length l

/-- `html.unescape`, modelled for the named entities that can occur in the
documents in scope (`&amp; &lt; &gt; &quot; &#39; &nbsp;`); all other text
is returned unchanged, as `html.unescape` does for text containing no
entity reference. -/
def unescapeHtml : List Char → List Char
  | [] => []
  | '&' :: 'a' :: 'm' :: 'p' :: ';' :: rest => '&' :: unescapeHtml rest
  | '&' :: 'l' :: 't' :: ';' :: rest => '<' :: unescapeHtml rest
  | '&' :: 'g' :: 't' :: ';' :: rest => '>' :: unescapeHtml rest
  | '&' :: 'q' :: 'u' :: 'o' :: 't' :: ';' :: rest => '"' :: unescapeHtml rest
  | '&' :: '#' :: '3' :: '9' :: ';' :: rest => '\'' :: unescapeHtml rest
  | '&' :: 'n' :: 'b' :: 's' :: 'p' :: ';' :: rest => ' ' :: unescapeHtml rest
  | c :: rest => c :: unescapeHtml rest

/-- `re.sub(r'\s+', ' ', text)`: collapse every whitespace run to a single
space.  The Boolean records whether the previous character was part of a
whitespace run already emitted. -/
def collapseWsAux : Bool → List Char → List Char
  | _, [] => []
  | prevSpace, c :: rest =>
    if isSpace c then
      if prevSpace then collapseWsAux true rest
      else ' ' :: collapseWsAux true rest
    else c :: collapseWsAux false rest

def collapseWs (l : List Char) : List Char := collapseWsAux false l

/-- Step 1 of `_regex_extract_courses`: the normalized `clean_text`. -/
def cleanText (markdown : List Char) : List Char :=
  collapseWs (unescapeHtml (stripTags markdown))

/-! ## Parser primitives

Each primitive consumes a prefix of a `List Char` suffix of the text and
returns the consumed characters (in original case) plus the remainder. -/

/-- Maximal run of characters satisfying `p` (a greedy quantified class):
the run and the remainder. -/
def takeRun (p : Char → Bool) (l : List Char) : List Char × List Char :=
  (l.takeWhile p, l.dropWhile p)

/-- Greedy `class{lo,hi}` immediately followed by a class-disjoint pattern:
the whole run must have length in `[lo, hi]` (see the header comment; used
for `[A-Z]{2,4}` before `\s+`). -/
def parseRunBetween (p : Char → Bool) (lo hi : Nat) (l : List Char) :
    Option (List Char × List Char) :=
  if lo ≤ (l.takeWhile p).length ∧ (l.takeWhile p).length ≤ hi then
    some (l.takeWhile p, l.dropWhile p)
  else none

/-- `class{n}`: exactly `n` characters satisfying `p`, no backtracking
(used for `\d{3}`, `\d{4}`, `\d`). -/
def parseExact (p : Char → Bool) : Nat → List Char → Option (List Char × List Char)
  | 0, l => some ([], l)
  | _ + 1, [] => none
  | n + 1, c :: rest =>
    if p c then
      match parseExact p n rest with
      | some (r, t) => some (c :: r, t)
      | none => none
    else none

/-- `\s+` immediately followed by a non-whitespace pattern: the maximal
whitespace run, required non-empty. -/
def parseSpaces1 (l : List Char) : Option (List Char × List Char) :=
  if (l.takeWhile isSpace).length = 0 then none
  else some (l.takeWhile isSpace, l.dropWhile isSpace)

/-- First-wins alternation between two already-parsed alternatives
(`(A|B)` tries `A` first). -/
def orElseO (a b : Option (List Char × List Char)) : Option (List Char × List Char) :=
  match a with
  | some r => some r
  | none => b

/-- Case-insensitive literal (`re.IGNORECASE`); returns the text actually
consumed, in its original case. -/
def parseLitCi : List Char → List Char → Option (List Char × List Char)
  | [], l => some ([], l)
  | _ :: _, [] => none
  | p :: ps, c :: rest =>
    if ciEq p c then
      match parseLitCi ps rest with
      | some (r, t) => some (c :: r, t)
      | none => none
    else none

/-! ## The full-code course pattern

`\b([A-Z]{2,4})\s+(\d{3})\s+([A-Za-z\s]+?)\s+(\d)\s+(Fall|Spring)\s+(\d{4})`
with `re.IGNORECASE`. -/

/-- The raw captures of one `pattern_full` match.  `consumed` is the whole
matched span (so `match.end() = start + consumed.length`). -/
structure FullM where
  dept : List Char
  num : List Char
  title : List Char
  unitsChar : Char
  season : List Char
  year : List Char
  consumed : List Char
  deriving Repr, DecidableEq

/-- The tail `\s+(\d)\s+(Fall|Spring)\s+(\d{4})` shared by both course
patterns; deterministic (every greedy piece is followed by a disjoint one).
Returns `(unitsChar, season, year, consumedTail, rest)`. -/
def parseTail (l : List Char) : Option (Char × List Char × List Char × List Char × List Char) :=
  (parseSpaces1 l).bind fun w1 =>
  (parseExact isDigit 1 w1.2).bind fun u =>
  (parseSpaces1 u.2).bind fun w2 =>
  (orElseO (parseLitCi "Fall".data w2.2) (parseLitCi "Spring".data w2.2)).bind fun se =>
  (parseSpaces1 se.2).bind fun w3 =>
  (parseExact isDigit 4 w3.2).bind fun yr =>
  match u.1 with
  | [uc] => some (uc, se.1, yr.1, w1.1 ++ u.1 ++ w2.1 ++ se.1 ++ w3.1 ++ yr.1, yr.2)
  | _ => none

/-- The lazy title `([A-Za-z\s]+?)` followed by `parseTail`: the shortest
non-empty extent of title-class characters after which the tail matches,
exactly Python's lazy `+?`.  `acc` holds the title characters consumed so
far (reversed). -/
def titleLoop (acc : List Char) :
    List Char → Option (List Char × (Char × List Char × List Char × List Char × List Char))
  | [] => none
  | c :: rest =>
    if isAlpha c || isSpace c then
      match parseTail rest with
      | some tr => some ((c :: acc).reverse, tr)
      | none => titleLoop (c :: acc) rest
    else none

/-- The `\s+` in front of the lazy title is the one greedy piece the engine
can backtrack (the title class `[A-Za-z\s]` overlaps `\s`): Python tries
`w2 = run.take k` for `k` from the full run length down to `1`, and for each
split runs the lazy title from the remaining characters.  `run` is the
maximal whitespace run after the course number. -/
def splitLoop (run rest : List Char) :
    Nat → Option (Nat × List Char × (Char × List Char × List Char × List Char × List Char))
  | 0 => none
  | k + 1 =>
    match titleLoop [] (run.drop (k + 1) ++ rest) with
    | some (title, tr) => some (k + 1, title, tr)
    | none => splitLoop run rest k

/-- Attempt `pattern_full` at one position.  `prevWord` tells whether the
character immediately before this position is a word character (for `\b`). -/
def matchFullAt (prevWord : Bool) (l : List Char) : Option FullM :=
  -- \b: the first matched character is a letter (a word character), so the
  -- boundary holds iff the previous character is not a word character.
  if prevWord then none
  else
    (parseRunBetween isAlpha 2 4 l).bind fun dept =>
    (parseSpaces1 dept.2).bind fun w1 =>
    (parseExact isDigit 3 w1.2).bind fun num =>
    let run := num.2.takeWhile isSpace
    let l4 := num.2.dropWhile isSpace
    (splitLoop run l4 run.length).bind fun st =>
    some { dept := dept.1, num := num.1, title := st.2.1, unitsChar := st.2.2.1,
           season := st.2.2.2.1, year := st.2.2.2.2.1,
           consumed := dept.1 ++ w1.1 ++ num.1 ++ run.take st.1 ++ st.2.1 ++ st.2.2.2.2.2.1 }

/-- `re.finditer(pattern_full, text)`: scan left to right, emit each
leftmost match with its start offset, resume after the match end
(non-overlapping).  Fuel is the text length plus one; every step either
advances one character or consumes a non-empty match. -/
def finditerFullAux : Nat → Nat → Bool → List Char → List (Nat × FullM)
  | 0, _, _, _ => []
  | _ + 1, _, _, [] => []
  | fuel + 1, pos, prevWord, c :: rest =>
    match matchFullAt prevWord (c :: rest) with
    | some m =>
      (pos, m) ::
        finditerFullAux fuel (pos + m.consumed.length)
          (match m.consumed.getLast? with
           | some d => isWordChar d
           | none => prevWord)
          ((c :: rest).drop m.consumed.length)
    | none => finditerFullAux fuel (pos + 1) (isWordChar c) rest

def finditerFull (text : List Char) : List (Nat × FullM) :=
  finditerFullAux (text.length + 1) 0 false text

/-! ## The partial-code course pattern

`\b([A-Z]{2,4})\s+([A-Z][A-Za-z\s]+?)\s+(\d)\s+(Fall|Spring)\s+(\d{4})`
with `re.IGNORECASE`. -/

/-- The raw captures of one `pattern_partial` match. -/
structure PartialM where
  dept : List Char
  title : List Char
  unitsChar : Char
  season : List Char
  year : List Char
  consumed : List Char
  deriving Repr, DecidableEq

/-- Attempt `pattern_partial` at one position: like `matchFullAt` but with
no course number, and the title is `[A-Z]` (any-case letter under
`re.IGNORECASE`) followed by the lazy `[A-Za-z\s]+?`. -/
def matchPartialAt (prevWord : Bool) (l : List Char) : Option PartialM :=
  if prevWord then none
  else
    (parseRunBetween isAlpha 2 4 l).bind fun dept =>
    -- Here the following title must start with a letter, so backtracking
    -- this `\s+` to a shorter split always fails (the title would start
    -- with a space): the maximal run is the only viable choice.
    (parseSpaces1 dept.2).bind fun w1 =>
    match w1.2 with
    | [] => none
    | t0 :: l3 =>
      if isAlpha t0 then
        (titleLoop [t0] l3).bind fun st =>
        some { dept := dept.1, title := st.1, unitsChar := st.2.1,
               season := st.2.2.1, year := st.2.2.2.1,
               consumed := dept.1 ++ w1.1 ++ st.1 ++ st.2.2.2.2.1 }
      else none

/-- `re.finditer(pattern_partial, text)`. -/
def finditerPartialAux : Nat → Nat → Bool → List Char → List (Nat × PartialM)
  | 0, _, _, _ => []
  | _ + 1, _, _, [] => []
  | fuel + 1, pos, prevWord, c :: rest =>
    match matchPartialAt prevWord (c :: rest) with
    | some m =>
      (pos, m) ::
        finditerPartialAux fuel (pos + m.consumed.length)
          (match m.consumed.getLast? with
           | some d => isWordChar d
           | none => prevWord)
          ((c :: rest).drop m.consumed.length)
    | none => finditerPartialAux fuel (pos + 1) (isWordChar c) rest

def finditerPartial (text : List Char) : List (Nat × PartialM) :=
  finditerPartialAux (text.length + 1) 0 false text

/-! ## Section locator

```
section_patterns = {'CORE': r'CISAT CORE COURSES',
                    'CONCENTRATION': r'CONCENTRATION COURSE',
                    'ELECTIVE': r'ELECTIVE or SECOND CONCENTRATION'}
```
each searched case-insensitively; found `(start, kind)` pairs are sorted by
the Python tuple order on `(position, kind-string)`. -/

inductive SKind where
  | CORE
  | CONCENTRATION
  | ELECTIVE
  deriving Repr, DecidableEq

/-- `re.search(literal, text, re.IGNORECASE).start()`: offset of the
leftmost case-insensitive occurrence of the anchor phrase. -/
def searchLitCiAux : Nat → List Char → List Char → Option Nat
  | _, _, [] => none
  | pos, lit, c :: rest =>
    match parseLitCi lit (c :: rest) with
    | some _ => some pos
    | none => searchLitCiAux (pos + 1) lit rest

def searchLitCi (lit text : List Char) : Option Nat :=
  match lit with
  | [] => some 0
  | _ :: _ => searchLitCiAux 0 lit text

def anchorOf : SKind → List Char
  | .CORE => "CISAT CORE COURSES".data
  | .CONCENTRATION => "CONCENTRATION COURSE".data
  | .ELECTIVE => "ELECTIVE or SECOND CONCENTRATION".data

/-- Python compares the tuples `(position, section_type)` where the second
component is the section's *string*; `'CONCENTRATION' < 'CORE' < 'ELECTIVE'`
in string order, encoded here as a rank (only relevant on position ties,
which cannot occur for distinct anchor phrases). -/
def tieRank : SKind → Nat
  | .CONCENTRATION => 0
  | .CORE => 1
  | .ELECTIVE => 2

def boundaryLE (a b : Nat × SKind) : Bool :=
  a.1 < b.1 || (a.1 = b.1 && tieRank a.2 ≤ tieRank b.2)

/-- Stable insertion sort, the effect of `section_positions.sort()`. -/
def insertBoundary (a : Nat × SKind) : List (Nat × SKind) → List (Nat × SKind)
  | [] => [a]
  | b :: rest => if boundaryLE a b then a :: b :: rest else b :: insertBoundary a rest

def sortBoundaries : List (Nat × SKind) → List (Nat × SKind)
  | [] => []
  | a :: rest => insertBoundary a (sortBoundaries rest)

/-- `section_positions` of `_regex_extract_courses`: for each kind, in the
dictionary's insertion order, the offset of the first anchor match if any;
then sorted. -/
def sectionPositions (text : List Char) : List (Nat × SKind) :=
  sortBoundaries <|
    [SKind.CORE, SKind.CONCENTRATION, SKind.ELECTIVE].filterMap fun k =>
      match searchLitCi (anchorOf k) text with
      | some pos => some (pos, k)
      | none => none

/-! ## Section assignment

The forward-scanning loop of the source (identical in both matcher folds):
```
current_section = None
for i, (pos, section_type) in enumerate(section_positions):
    if course_pos > pos:
        current_section = section_type
        if i + 1 < len(section_positions) and course_pos > section_positions[i+1][0]:
            continue
        break
if not current_section:
    continue  # Skip courses not in any section
```
-/

def assignLoop (coursePos : Nat) : List (Nat × SKind) → Option SKind → Option SKind
  | [], cur => cur
  | (pos, kind) :: rest, cur =>
    if pos < coursePos then
      match rest with
      | (npos, _) :: _ =>
        if npos < coursePos then assignLoop coursePos rest (some kind)
        else some kind
      | [] => some kind
    else assignLoop coursePos rest cur

/-- `current_section` as computed by the loop for a candidate at
`coursePos`. -/
def assignSection (positions : List (Nat × SKind)) (coursePos : Nat) : Option SKind :=
  assignLoop coursePos positions none

/-! ## Notes extractor

```
notes_match = re.search(
    rf'{re.escape(semester)}\s+(PR:[^A-Z]*(?:[A-Z]{{2,4}}\s+\d{{3}}|CHECKLIST))',
    clean_text[match.end():match.end()+100], re.IGNORECASE)
notes = notes_match.group(1).strip() if notes_match else None
if notes:
    notes = re.sub(r'\s+(IST|CHECKLIST).*$', '', notes).strip()
```
-/

/-- The first terminator alternative `[A-Z]{2,4}\s+\d{3}` (a full course
code reference). -/
def parseCourseRef (l : List Char) : Option (List Char × List Char) :=
  (parseRunBetween isAlpha 2 4 l).bind fun d =>
  (parseSpaces1 d.2).bind fun w =>
  (parseExact isDigit 3 w.2).bind fun n =>
  some (d.1 ++ w.1 ++ n.1, n.2)

/-- The group `(PR:[^A-Z]*(?:[A-Z]{2,4}\s+\d{3}|CHECKLIST))`: under
`re.IGNORECASE` the class `[^A-Z]` rejects letters of either case, and both
terminator alternatives (tried in order) start with a letter, so the
maximal letter-free run is the only viable extent. -/
def parseNotesGroup (l : List Char) : Option (List Char × List Char) :=
  (parseLitCi "PR:".data l).bind fun pr =>
  let free := pr.2.takeWhile fun c => !isAlpha c
  let l2 := pr.2.dropWhile fun c => !isAlpha c
  (orElseO (parseCourseRef l2) (parseLitCi "CHECKLIST".data l2)).bind fun term =>
  some (pr.1 ++ free ++ term.1, term.2)

/-- One attempt of the whole notes pattern
`{semester}\s+(group)` at a window position. -/
def matchNotesAt (semester l : List Char) : Option (List Char) :=
  (parseLitCi semester l).bind fun sm =>
  (parseSpaces1 sm.2).bind fun w =>
  (parseNotesGroup w.2).bind fun g =>
  some g.1

/-- `re.search` of the notes pattern over the window: leftmost position
wins. -/
def searchNotes (semester : List Char) : List Char → Option (List Char)
  | [] => none
  | c :: rest =>
    match matchNotesAt semester (c :: rest) with
    | some g => some g
    | none => searchNotes semester rest

/-- `re.sub(r'\s+(IST|CHECKLIST).*$', '', notes)` (no `IGNORECASE` here):
drop everything from the leftmost whitespace run that is immediately
followed by the literal `IST` or `CHECKLIST`. -/
def trimNotesAux (keptRev : List Char) : List Char → List Char
  | [] => keptRev.reverse
  | c :: rest =>
    let (run, afterRun) := takeRun isSpace (c :: rest)
    if run.length != 0 &&
        ("IST".data.isPrefixOf afterRun || "CHECKLIST".data.isPrefixOf afterRun) then
      keptRev.reverse
    else trimNotesAux (c :: keptRev) rest

def trimNotes (notes : List Char) : List Char := trimNotesAux [] notes

/-- The `notes` value for a full-code match ending at offset `matchEnd`:
the window is `clean_text[match.end():match.end()+100]`. -/
def notesFor (text : List Char) (matchEnd : Nat) (semester : List Char) :
    Option (List Char) :=
  let window := (text.drop matchEnd).take 100
  match searchNotes semester window with
  | none => none
  | some g =>
    let notes := pyStrip g
    if notes.isEmpty then some notes
    else some (pyStrip (trimNotes notes))

/-! ## Course records and the extraction pipeline

A course is a Python dict; optional fields model possibly-missing keys (a
key holding Python `None` is identified with a missing key — nothing in the
embedded code distinguishes them).  The `section` key is called `sec` here
because `section` is a Lean keyword. -/

structure Course where
  course_code : Option (List Char)
  course_title : Option (List Char)
  course_name : Option (List Char)
  units : Option Nat
  credits : Option Nat
  semester_taken : Option (List Char)
  notes : Option (List Char)
  sec : Option SKind
  completed : Bool
  deriving Repr, DecidableEq

/-- The dict built for a full-code match assigned to section `k`:
`course_code = f"{dept} {number}"`, `semester = f"{season} {year}"`,
`units = int(single digit)`, `completed = True`. -/
def mkFullCourse (text : List Char) (pm : Nat × FullM) (k : SKind) : Course :=
  let title := pyStrip pm.2.title
  let units := pm.2.unitsChar.toNat - 48
  let semester := pm.2.season ++ ' ' :: pm.2.year
  { course_code := some (pm.2.dept ++ ' ' :: pm.2.num), course_title := some title,
    course_name := some title, units := some units, credits := some units,
    semester_taken := some semester,
    notes := notesFor text (pm.1 + pm.2.consumed.length) semester, sec := some k,
    completed := true }

/-- Realize one full-code match into a record (the body of the first
`for match in re.finditer(pattern_full, ...)` loop); `none` when the
candidate is skipped because no section precedes it. -/
def buildFullCourse (text : List Char) (positions : List (Nat × SKind))
    (pm : Nat × FullM) : Option Course :=
  match assignSection positions pm.1 with
  | none => none
  | some k => some (mkFullCourse text pm k)

/-- The records produced by the full-code loop, in document order. -/
def fullCoursesOf (text : List Char) (positions : List (Nat × SKind)) : List Course :=
  (finditerFull text).filterMap (buildFullCourse text positions)

/-- The dict built for a partial-code match assigned to section `k`:
`course_code` is the department alone and `notes` is absent. -/
def mkPartialCourse (pm : Nat × PartialM) (k : SKind) : Course :=
  let title := pyStrip pm.2.title
  { course_code := some pm.2.dept, course_title := some title,
    course_name := some title, units := some (pm.2.unitsChar.toNat - 48),
    credits := some (pm.2.unitsChar.toNat - 48),
    semester_taken := some (pm.2.season ++ ' ' :: pm.2.year), notes := none,
    sec := some k, completed := true }

/-- The body of the partial-code loop: given the records accepted so far,
either suppress the candidate (title substring of an earlier title, or no
preceding section boundary) or append its record.  The `course_title` key
is always present on the accumulated records, so `getD []` is the plain
`c['course_title']` lookup.  (The source also computes an `existing_codes`
set before this loop, but never reads it; that dead assignment has no
counterpart here.) -/
def partialStep (positions : List (Nat × SKind)) (courses : List Course)
    (pm : Nat × PartialM) : List Course :=
  if courses.any fun c =>
      containsSub (lowerStr (pyStrip pm.2.title)) (lowerStr (c.course_title.getD [])) then
    courses
  else
    match assignSection positions pm.1 with
    | none => courses
    | some k => courses ++ [mkPartialCourse pm k]

/-- `_regex_extract_courses`: the whole local extraction. -/
def regexExtractCourses (markdown : List Char) : List Course :=
  let text := cleanText markdown
  let positions := sectionPositions text
  (finditerPartial text).foldl (partialStep positions) (fullCoursesOf text positions)

/-- The value returned by `extract_courses` (step 3 of that function). -/
structure ExtractionResult where
  core_courses : List Course
  concentration_courses : List Course
  elective_courses : List Course
  courses : List Course
  deriving Repr, DecidableEq

/-- Step 3 of `extract_courses`: organize by section. -/
def organize (courses : List Course) : ExtractionResult :=
  { core_courses := courses.filter fun c => c.sec = some SKind.CORE
    concentration_courses := courses.filter fun c => c.sec = some SKind.CONCENTRATION
    elective_courses := courses.filter fun c => c.sec = some SKind.ELECTIVE
    courses := courses }

/-- `extract_courses`: the upstream text producer's outcome comes in as an
`Except`; its failure is the only failure the function re-raises (wrapped in
the `Failed to extract courses:` message).  On present text the local
extraction runs and its result is returned. -/
def extract_courses (textOutcome : Except (List Char) (List Char)) :
    Except (List Char) ExtractionResult :=
  match textOutcome with
  | .error e => .error ("Failed to extract courses: ".data ++ e)
  | .ok markdown => .ok (organize (regexExtractCourses markdown))

/-! ## Reconciliation and field normalization (`_post_process_courses`) -/

/-- The three section lists of a primary result (missing keys read through
`.get(..., [])` are the empty list). -/
structure PPResult where
  core_courses : List Course
  concentration_courses : List Course
  elective_courses : List Course
  deriving Repr, DecidableEq

/-- The section-level merge (lines `all_extracted = ...` through the three
`if not result.get(...)` replacements). -/
def reconcile (result : PPResult) (fallback : List Course) : PPResult :=
  let all_extracted := result.core_courses.length +
    (result.concentration_courses.length + result.elective_courses.length)
  if all_extracted < 3 then
    { core_courses :=
        if result.core_courses.isEmpty then
          fallback.filter fun c => c.sec = some SKind.CORE
        else result.core_courses
      concentration_courses :=
        if result.concentration_courses.isEmpty then
          fallback.filter fun c => c.sec = some SKind.CONCENTRATION
        else result.concentration_courses
      elective_courses :=
        if result.elective_courses.isEmpty then
          fallback.filter fun c => c.sec = some SKind.ELECTIVE
        else result.elective_courses }
  else result

/-- The per-record normalization (the `for section_key in [...]` loop):
recompute `completed` from `semester_taken` (`bool(semester and
semester.strip())`; a missing key or `None` reads as the falsy `''`), and
mirror `course_title` into `course_name` and `units` into `credits` when
the target key is absent. -/
def normalizeCourse (c : Course) : Course :=
  let semester := c.semester_taken.getD []
  { c with
    completed := !semester.isEmpty && !(pyStrip semester).isEmpty
    course_name :=
      if c.course_title.isSome && c.course_name.isNone then c.course_title
      else c.course_name
    credits := if c.units.isSome && c.credits.isNone then c.units else c.credits }

/-- `_post_process_courses`: reconcile against the local extraction of
`markdown`, then normalize every record of every section.  (The source
guards the per-record normalization with `isinstance(course, dict)`; in
this model every record is a dict, so the guard is always true.) -/
def post_process_courses (result : PPResult) (markdown : List Char) : PPResult :=
  let merged := reconcile result (regexExtractCourses markdown)
  { core_courses := merged.core_courses.map normalizeCourse
    concentration_courses := merged.concentration_courses.map normalizeCourse
    elective_courses := merged.elective_courses.map normalizeCourse }

/-! ## Lemmas about the parser primitives -/

theorem takeRun_sat {p : Char → Bool} {l r t : List Char} (h : takeRun p l = (r, t)) :
    ∀ c ∈ r, p c = true := by
  unfold takeRun at h
  cases h
  intro c hc
  exact List.mem_takeWhile_imp hc

theorem parseRunBetween_sat {p : Char → Bool} {lo hi : Nat} {l r t : List Char}
    (h : parseRunBetween p lo hi l = some (r, t)) :
    lo ≤ r.length ∧ r.length ≤ hi ∧ ∀ c ∈ r, p c = true := by
  unfold parseRunBetween at h
  split at h
  · rename_i hcond
    cases h
    exact ⟨hcond.1, hcond.2, fun c hc => List.mem_takeWhile_imp hc⟩
  · exact absurd h (by simp)

theorem parseExact_sat {p : Char → Bool} :
    ∀ {n : Nat} {l r t : List Char}, parseExact p n l = some (r, t) →
      r.length = n ∧ ∀ c ∈ r, p c = true := by
  intro n
  induction n with
  | zero =>
    intro l r t h
    simp only [parseExact, Option.some.injEq, Prod.mk.injEq] at h
    simp [← h.1]
  | succ k ih =>
    intro l r t h
    match l with
    | [] => simp [parseExact] at h
    | c :: rest =>
      simp only [parseExact] at h
      split at h
      · rename_i hpc
        split at h
        · rename_i r' t' heq
          cases h
          obtain ⟨hlen, hall⟩ := ih heq
          refine ⟨by simp [hlen], ?_⟩
          intro x hx
          rcases List.mem_cons.mp hx with hx | hx
          · exact hx ▸ hpc
          · exact hall x hx
        · exact absurd h (by simp)
      · exact absurd h (by simp)

theorem parseLitCi_sound {lit : List Char} :
    ∀ {l r t : List Char}, parseLitCi lit l = some (r, t) →
      lowerStr r = lowerStr lit ∧ l = r ++ t := by
  induction lit with
  | nil =>
    intro l r t h
    simp only [parseLitCi, Option.some.injEq, Prod.mk.injEq] at h
    simp [← h.1, ← h.2]
  | cons p ps ih =>
    intro l r t h
    match l with
    | [] => simp [parseLitCi] at h
    | c :: rest =>
      simp only [parseLitCi] at h
      split at h
      · rename_i hci
        split at h
        · rename_i r' t' heq
          cases h
          obtain ⟨hlow, happ⟩ := ih heq
          have hc : lower c = lower p := by
            have := of_decide_eq_true hci
            exact this.symm
          constructor
          · simp only [lowerStr, List.map_cons] at *
            rw [hc, hlow]
          · simp [happ]
        · exact absurd h (by simp)
      · exact absurd h (by simp)

/-- A successful case-insensitive literal parse means the literal occurs,
case-insensitively, at the head of the input. -/
theorem parseLitCi_starts {lit l r t : List Char} (h : parseLitCi lit l = some (r, t)) :
    lowerStr lit <+: lowerStr l := by
  obtain ⟨hlow, happ⟩ := parseLitCi_sound h
  refine ⟨lowerStr t, ?_⟩
  rw [happ, ← hlow]
  simp [lowerStr]

theorem orElseO_eq_some {a b : Option (List Char × List Char)}
    {r : List Char × List Char} (h : orElseO a b = some r) :
    a = some r ∨ (a = none ∧ b = some r) := by
  unfold orElseO at h
  cases a with
  | some x => exact Or.inl h
  | none => exact Or.inr ⟨rfl, h⟩

/-- Everything `parseTail` captures has the shape the pattern tail
prescribes: a digit units character, a case-variant of `Fall` or `Spring`,
and a four-digit year. -/
theorem parseTail_sat {l : List Char} {uc : Char} {season year cons rest : List Char}
    (h : parseTail l = some (uc, season, year, cons, rest)) :
    isDigit uc = true ∧
      (lowerStr season = "fall".data ∨ lowerStr season = "spring".data) ∧
      year.length = 4 ∧ ∀ c ∈ year, isDigit c = true := by
  simp only [parseTail, Option.bind_eq_some] at h
  obtain ⟨w1, hsp1, u, hex1, w2, hsp2, se, hse, w3, hsp3, yr, hex4, hfin⟩ := h
  obtain ⟨hulen, hudig⟩ := parseExact_sat hex1
  rcases hu1 : u.1 with - | ⟨x, - | ⟨y, tl⟩⟩
  · rw [hu1] at hfin; cases hfin
  · rw [hu1] at hfin
    simp only [Option.some.injEq, Prod.mk.injEq] at hfin
    obtain ⟨hx, hse2, hyr2, -, -⟩ := hfin
    subst hx hse2 hyr2
    refine ⟨hudig x (by simp [hu1]), ?_, (parseExact_sat hex4).1, (parseExact_sat hex4).2⟩
    rcases orElseO_eq_some hse with hf | ⟨-, hf⟩
    · left
      simpa using (parseLitCi_sound hf).1
    · right
      simpa using (parseLitCi_sound hf).1
  · rw [hu1] at hfin; cases hfin

theorem titleLoop_tail :
    ∀ {l acc t : List Char} {tr : Char × List Char × List Char × List Char × List Char},
      titleLoop acc l = some (t, tr) → ∃ l', parseTail l' = some tr := by
  intro l
  induction l with
  | nil => intro acc t tr h; simp [titleLoop] at h
  | cons c rest ih =>
    intro acc t tr h
    simp only [titleLoop] at h
    split at h
    · split at h
      · rename_i tr' heq
        cases h
        exact ⟨rest, heq⟩
      · exact ih h
    · cases h

theorem splitLoop_tail {run rest : List Char} :
    ∀ {k kk : Nat} {t : List Char} {tr : Char × List Char × List Char × List Char × List Char},
      splitLoop run rest k = some (kk, t, tr) → ∃ l', parseTail l' = some tr := by
  intro k
  induction k with
  | zero => intro kk t tr h; cases h
  | succ j ih =>
    intro kk t tr h
    simp only [splitLoop] at h
    split at h
    · rename_i t' tr' heq
      cases h
      exact titleLoop_tail heq
    · exact ih h

/-- Everything captured by a successful `pattern_full` attempt has the
prescribed shape: a 2–4 letter department (letters of either case, by
`re.IGNORECASE`), a 3-digit course number, a single-digit units field, a
case-variant of `Fall`/`Spring`, and a 4-digit year. -/
theorem matchFullAt_sat {prevWord : Bool} {l : List Char} {m : FullM}
    (h : matchFullAt prevWord l = some m) :
    (2 ≤ m.dept.length ∧ m.dept.length ≤ 4 ∧ ∀ c ∈ m.dept, isAlpha c = true) ∧
      (m.num.length = 3 ∧ ∀ c ∈ m.num, isDigit c = true) ∧
      isDigit m.unitsChar = true ∧
      (lowerStr m.season = "fall".data ∨ lowerStr m.season = "spring".data) ∧
      m.year.length = 4 ∧ ∀ c ∈ m.year, isDigit c = true := by
  unfold matchFullAt at h
  split at h
  · cases h
  · simp only [Option.bind_eq_some] at h
    obtain ⟨dept, hdept, w1, hsp1, num, hnum, st, hsplit, hmk⟩ := h
    cases hmk
    obtain ⟨l', htail⟩ := splitLoop_tail hsplit
    obtain ⟨hu, hseason, hylen, hydig⟩ := parseTail_sat htail
    obtain ⟨hd1, hd2, hd3⟩ := parseRunBetween_sat hdept
    obtain ⟨hn1, hn2⟩ := parseExact_sat hnum
    exact ⟨⟨hd1, hd2, hd3⟩, ⟨hn1, hn2⟩, hu, hseason, hylen, hydig⟩

/-- The analogue of `matchFullAt_sat` for `pattern_partial`. -/
theorem matchPartialAt_sat {prevWord : Bool} {l : List Char} {m : PartialM}
    (h : matchPartialAt prevWord l = some m) :
    (2 ≤ m.dept.length ∧ m.dept.length ≤ 4 ∧ ∀ c ∈ m.dept, isAlpha c = true) ∧
      isDigit m.unitsChar = true ∧
      (lowerStr m.season = "fall".data ∨ lowerStr m.season = "spring".data) ∧
      m.year.length = 4 ∧ ∀ c ∈ m.year, isDigit c = true := by
  unfold matchPartialAt at h
  split at h
  · cases h
  · simp only [Option.bind_eq_some] at h
    obtain ⟨dept, hdept, w1, hsp1, hrest⟩ := h
    obtain ⟨hd1, hd2, hd3⟩ := parseRunBetween_sat hdept
    split at hrest
    · cases hrest
    · rename_i t0 l3
      split at hrest
      · simp only [Option.bind_eq_some] at hrest
        obtain ⟨st, hloop, hmk⟩ := hrest
        cases hmk
        obtain ⟨l', htail⟩ := titleLoop_tail hloop
        obtain ⟨hu, hseason, hylen, hydig⟩ := parseTail_sat htail
        exact ⟨⟨hd1, hd2, hd3⟩, hu, hseason, hylen, hydig⟩
      · cases hrest

/-- Every element emitted by the full-pattern scanner is a successful
`matchFullAt` result. -/
theorem finditerFullAux_mem :
    ∀ {fuel pos : Nat} {pw : Bool} {l : List Char} {pm : Nat × FullM},
      pm ∈ finditerFullAux fuel pos pw l →
      ∃ pw' l', matchFullAt pw' l' = some pm.2 := by
  intro fuel
  induction fuel with
  | zero => intro pos pw l pm h; cases h
  | succ f ih =>
    intro pos pw l pm h
    match l with
    | [] => cases h
    | c :: rest =>
      simp only [finditerFullAux] at h
      split at h
      · rename_i m hm
        rcases List.mem_cons.mp h with h | h
        · exact ⟨pw, c :: rest, by rw [hm, h]⟩
        · exact ih h
      · exact ih h

theorem finditerFull_mem {text : List Char} {pm : Nat × FullM}
    (h : pm ∈ finditerFull text) : ∃ pw l, matchFullAt pw l = some pm.2 :=
  finditerFullAux_mem h

theorem finditerPartialAux_mem :
    ∀ {fuel pos : Nat} {pw : Bool} {l : List Char} {pm : Nat × PartialM},
      pm ∈ finditerPartialAux fuel pos pw l →
      ∃ pw' l', matchPartialAt pw' l' = some pm.2 := by
  intro fuel
  induction fuel with
  | zero => intro pos pw l pm h; cases h
  | succ f ih =>
    intro pos pw l pm h
    match l with
    | [] => cases h
    | c :: rest =>
      simp only [finditerPartialAux] at h
      split at h
      · rename_i m hm
        rcases List.mem_cons.mp h with h | h
        · exact ⟨pw, c :: rest, by rw [hm, h]⟩
        · exact ih h
      · exact ih h

theorem finditerPartial_mem {text : List Char} {pm : Nat × PartialM}
    (h : pm ∈ finditerPartial text) : ∃ pw l, matchPartialAt pw l = some pm.2 :=
  finditerPartialAux_mem h

/-! ## Provenance of extracted records -/

theorem digit_toNat_le {c : Char} (h : isDigit c = true) : c.toNat - 48 ≤ 9 := by
  simp only [isDigit, Bool.and_eq_true, decide_eq_true_eq] at h
  have h2 : c.toNat ≤ Char.toNat '9' := Char.le_def.mp h.2
  have h9 : Char.toNat '9' = 57 := rfl
  omega

theorem partialStep_mem {P : List (Nat × SKind)} {cs : List Course}
    {pm : Nat × PartialM} {c : Course} (h : c ∈ partialStep P cs pm) :
    c ∈ cs ∨ ∃ k, c = mkPartialCourse pm k := by
  unfold partialStep at h
  split at h
  · exact Or.inl h
  · split at h
    · exact Or.inl h
    · rename_i k hk
      rcases List.mem_append.mp h with h | h
      · exact Or.inl h
      · simp only [List.mem_singleton] at h
        exact Or.inr ⟨k, h⟩

theorem foldl_partialStep_mem {P : List (Nat × SKind)} :
    ∀ {ms : List (Nat × PartialM)} {cs0 : List Course} {c : Course},
      c ∈ ms.foldl (partialStep P) cs0 →
      c ∈ cs0 ∨ ∃ pm k, pm ∈ ms ∧ c = mkPartialCourse pm k := by
  intro ms
  induction ms with
  | nil => intro cs0 c h; exact Or.inl h
  | cons pm0 ms ih =>
    intro cs0 c h
    simp only [List.foldl_cons] at h
    rcases ih h with h | ⟨pm, k, hmem, heq⟩
    · rcases partialStep_mem h with h | ⟨k, heq⟩
      · exact Or.inl h
      · exact Or.inr ⟨pm0, k, List.mem_cons_self _ _, heq⟩
    · exact Or.inr ⟨pm, k, List.mem_cons_of_mem _ hmem, heq⟩

theorem buildFullCourse_eq_some {text : List Char} {P : List (Nat × SKind)}
    {pm : Nat × FullM} {c : Course} (h : buildFullCourse text P pm = some c) :
    ∃ k, assignSection P pm.1 = some k ∧ c = mkFullCourse text pm k := by
  unfold buildFullCourse at h
  split at h
  · cases h
  · rename_i k hk
    cases h
    exact ⟨k, hk, rfl⟩

/-- Every record of the local extraction originates from a full-code or a
partial-code match. -/
theorem regexExtract_mem {markdown : List Char} {c : Course}
    (h : c ∈ regexExtractCourses markdown) :
    (∃ pm k, pm ∈ finditerFull (cleanText markdown) ∧
       c = mkFullCourse (cleanText markdown) pm k) ∨
    (∃ pm k, pm ∈ finditerPartial (cleanText markdown) ∧ c = mkPartialCourse pm k) := by
  unfold regexExtractCourses at h
  rcases foldl_partialStep_mem h with h | ⟨pm, k, hm, he⟩
  · unfold fullCoursesOf at h
    rcases List.mem_filterMap.mp h with ⟨pm, hpm, hbuild⟩
    obtain ⟨k, hk, he⟩ := buildFullCourse_eq_some hbuild
    exact Or.inl ⟨pm, k, hpm, he⟩
  · exact Or.inr ⟨pm, k, hm, he⟩

/-- C10.  Every record produced by the local extraction is `completed`,
has a single-digit units value (0–9), and a non-empty semester-taken field
of the form `{season} {4-digit year}` where the season text is a case
variant of `Fall` or `Spring`.  In particular a table row with no
recognizable semester never yields a record: every record carries one. -/
theorem C10_local_record_shape (markdown : List Char) (c : Course)
    (h : c ∈ regexExtractCourses markdown) :
    c.completed = true ∧
      (∃ u, c.units = some u ∧ u ≤ 9) ∧
      ∃ s y, c.semester_taken = some (s ++ ' ' :: y) ∧
        (lowerStr s = "fall".data ∨ lowerStr s = "spring".data) ∧
        y.length = 4 ∧ ∀ ch ∈ y, isDigit ch = true := by
  rcases regexExtract_mem h with ⟨pm, k, hpm, he⟩ | ⟨pm, k, hpm, he⟩
  · obtain ⟨pw, l, hm⟩ := finditerFull_mem hpm
    obtain ⟨-, -, hu, hseason, hylen, hydig⟩ := matchFullAt_sat hm
    subst he
    exact ⟨rfl, ⟨_, rfl, digit_toNat_le hu⟩,
      pm.2.season, pm.2.year, rfl, hseason, hylen, hydig⟩
  · obtain ⟨pw, l, hm⟩ := finditerPartial_mem hpm
    obtain ⟨-, hu, hseason, hylen, hydig⟩ := matchPartialAt_sat hm
    subst he
    exact ⟨rfl, ⟨_, rfl, digit_toNat_le hu⟩,
      pm.2.season, pm.2.year, rfl, hseason, hylen, hydig⟩

/-! ## The section-assignment loop -/

/-- In a strictly ascending list, an element that dominates every other is
the last one. -/
theorem getLast?_of_max {b : Nat × SKind} :
    ∀ {l : List (Nat × SKind)}, List.Pairwise (fun a b => a.1 < b.1) l →
      b ∈ l → (∀ b' ∈ l, b'.1 ≤ b.1) → l.getLast? = some b := by
  intro l
  induction l with
  | nil => intro _ hb; cases hb
  | cons a l ih =>
    intro hp hb hmax
    obtain ⟨ha, hpl⟩ := List.pairwise_cons.mp hp
    cases l with
    | nil =>
      rcases List.mem_singleton.mp hb with rfl
      rfl
    | cons x l' =>
      rw [List.getLast?_cons_cons]
      rcases List.mem_cons.mp hb with rfl | hb
      · exact absurd (hmax x (List.mem_cons_of_mem _ (List.mem_cons_self _ _)))
          (Nat.not_le.mpr (ha x (List.mem_cons_self _ _)))
      · exact ih hpl hb fun b' hb' => hmax b' (List.mem_cons_of_mem _ hb')

/-- On a strictly ascending boundary list the forward-scanning loop of the
source computes the last boundary strictly below the candidate position
(falling back to the loop's incoming `current_section`). -/
theorem assignLoop_eq (p : Nat) :
    ∀ (positions : List (Nat × SKind)) (cur : Option SKind),
      List.Pairwise (fun a b => a.1 < b.1) positions →
      assignLoop p positions cur =
        match (positions.filter fun b => b.1 < p).getLast? with
        | some b => some b.2
        | none => cur := by
  intro positions
  induction positions with
  | nil => intro cur _; rfl
  | cons b rest ih =>
    intro cur hp
    obtain ⟨pos, kind⟩ := b
    obtain ⟨hb, hrest⟩ := List.pairwise_cons.mp hp
    by_cases hbp : pos < p
    · cases rest with
      | nil => simp [assignLoop, hbp, List.filter]
      | cons nb rest' =>
        by_cases hnb : nb.1 < p
        · have step : assignLoop p ((pos, kind) :: nb :: rest') cur =
              assignLoop p (nb :: rest') (some kind) := by
            obtain ⟨npos, nkind⟩ := nb
            simp only [assignLoop, if_pos hbp]
            rw [if_pos hnb]
          rw [step, ih (some kind) hrest]
          have hfil : ((pos, kind) :: nb :: rest').filter (fun b => b.1 < p) =
              (pos, kind) :: (nb :: rest').filter (fun b => b.1 < p) := by
            simp [List.filter_cons, hbp]
          rw [hfil]
          have hfil2 : (nb :: rest').filter (fun b => b.1 < p) =
              nb :: rest'.filter (fun b => b.1 < p) := by
            simp [List.filter_cons, hnb]
          rw [hfil2, List.getLast?_cons_cons,
            List.getLast?_eq_getLast _ (List.cons_ne_nil _ _)]
        · have step : assignLoop p ((pos, kind) :: nb :: rest') cur = some kind := by
            obtain ⟨npos, nkind⟩ := nb
            simp only [assignLoop, if_pos hbp]
            rw [if_neg hnb]
          rw [step]
          have hrest' : (nb :: rest').filter (fun b => b.1 < p) = [] := by
            rw [List.filter_eq_nil_iff]
            intro b' hb'
            rcases List.mem_cons.mp hb' with rfl | hb'
            · simpa using hnb
            · have h1 := List.pairwise_cons.mp hrest
              have := h1.1 b' hb'
              simp only [decide_eq_true_eq]
              omega
          have hfil : ((pos, kind) :: nb :: rest').filter (fun b => b.1 < p) =
              [(pos, kind)] := by
            simp [List.filter_cons, hbp, hrest']
          rw [hfil]
          rfl
    · have step : assignLoop p ((pos, kind) :: rest) cur = assignLoop p rest cur := by
        cases rest with
        | nil => simp [assignLoop, hbp]
        | cons nb rest' =>
          obtain ⟨npos, nkind⟩ := nb
          simp only [assignLoop]
          rw [if_neg hbp]
      rw [step, ih cur hrest]
      have hfil : ((pos, kind) :: rest).filter (fun b => b.1 < p) =
          rest.filter (fun b => b.1 < p) := by
        simp [List.filter_cons, hbp]
      rw [hfil]

/-- C1.  On a boundary list that satisfies the data-model invariant
(strictly ascending offsets), the section assigned to a candidate at
position `p` is the kind of the boundary with the largest offset strictly
below `p`; when no boundary lies strictly below `p` the assignment is
`none`, and a candidate with assignment `none` yields no record in either
matcher loop. -/
theorem C1_section_assignment (positions : List (Nat × SKind)) (p : Nat)
    (hsorted : List.Pairwise (fun a b => a.1 < b.1) positions) :
    ((∀ b ∈ positions, ¬ b.1 < p) → assignSection positions p = none) ∧
    (∀ b ∈ positions, b.1 < p → (∀ b' ∈ positions, b'.1 < p → b'.1 ≤ b.1) →
      assignSection positions p = some b.2) ∧
    (assignSection positions p = none →
      (∀ text m, buildFullCourse text positions (p, m) = none) ∧
      ∀ cs m, partialStep positions cs (p, m) = cs) := by
  refine ⟨?_, ?_, ?_⟩
  · intro hnone
    unfold assignSection
    rw [assignLoop_eq p positions none hsorted]
    have : positions.filter (fun b => b.1 < p) = [] := by
      rw [List.filter_eq_nil_iff]
      intro b hb
      simpa using hnone b hb
    rw [this]
    rfl
  · intro b hb hblt hmax
    unfold assignSection
    rw [assignLoop_eq p positions none hsorted]
    have hlast : (positions.filter fun b => b.1 < p).getLast? = some b := by
      apply getLast?_of_max (List.Pairwise.filter _ hsorted)
      · rw [List.mem_filter]
        exact ⟨hb, by simpa using hblt⟩
      · intro b' hb'
        rw [List.mem_filter] at hb'
        exact hmax b' hb'.1 (by simpa using hb'.2)
    rw [hlast]
  · intro hnone
    constructor
    · intro text m
      unfold buildFullCourse
      rw [show ((p, m) : Nat × FullM).1 = p from rfl, hnone]
    · intro cs m
      unfold partialStep
      split
      · rfl
      · rw [show ((p, m) : Nat × PartialM).1 = p from rfl, hnone]

end Cisat

namespace Cisat

/-- Witness for C1: with boundaries at offsets 0 (CORE) and 49
(CONCENTRATION), a candidate at position 19 is assigned CORE. -/
theorem C1_section_assignment_witness :
    assignSection [(0, SKind.CORE), (49, SKind.CONCENTRATION)] 19 = some SKind.CORE :=
  (C1_section_assignment [(0, SKind.CORE), (49, SKind.CONCENTRATION)] 19 (by decide)).2.1
    (0, SKind.CORE) (by decide) (by decide) (by decide)

/-- C2.  When the primary result holds fewer than 3 records in total, each
of its three section lists is replaced by the local extraction's list for
that section exactly when it is empty, and kept unchanged (never
interleaved) when it is non-empty; when it holds 3 or more records the
reconciler returns the primary result unchanged. -/
theorem C2_reconciler (result : PPResult) (markdown : List Char) :
    (result.core_courses.length +
        (result.concentration_courses.length + result.elective_courses.length) < 3 →
      ((result.core_courses = [] →
          (reconcile result (regexExtractCourses markdown)).core_courses =
            (organize (regexExtractCourses markdown)).core_courses) ∧
        (result.core_courses ≠ [] →
          (reconcile result (regexExtractCourses markdown)).core_courses =
            result.core_courses)) ∧
      ((result.concentration_courses = [] →
          (reconcile result (regexExtractCourses markdown)).concentration_courses =
            (organize (regexExtractCourses markdown)).concentration_courses) ∧
        (result.concentration_courses ≠ [] →
          (reconcile result (regexExtractCourses markdown)).concentration_courses =
            result.concentration_courses)) ∧
      ((result.elective_courses = [] →
          (reconcile result (regexExtractCourses markdown)).elective_courses =
            (organize (regexExtractCourses markdown)).elective_courses) ∧
        (result.elective_courses ≠ [] →
          (reconcile result (regexExtractCourses markdown)).elective_courses =
            result.elective_courses))) ∧
    (3 ≤ result.core_courses.length +
        (result.concentration_courses.length + result.elective_courses.length) →
      reconcile result (regexExtractCourses markdown) = result) := by
  constructor
  · intro hlt
    unfold reconcile
    rw [if_pos hlt]
    refine ⟨⟨?_, ?_⟩, ⟨?_, ?_⟩, ⟨?_, ?_⟩⟩ <;> intro h
    · simp only [h, List.isEmpty_nil, if_pos]
      rfl
    · have : result.core_courses.isEmpty = false := by
        cases hc : result.core_courses with
        | nil => exact absurd hc h
        | cons a l => rfl
      simp [this]
    · simp only [h, List.isEmpty_nil, if_pos]
      rfl
    · have : result.concentration_courses.isEmpty = false := by
        cases hc : result.concentration_courses with
        | nil => exact absurd hc h
        | cons a l => rfl
      simp [this]
    · simp only [h, List.isEmpty_nil, if_pos]
      rfl
    · have : result.elective_courses.isEmpty = false := by
        cases hc : result.elective_courses with
        | nil => exact absurd hc h
        | cons a l => rfl
      simp [this]
  · intro hge
    unfold reconcile
    rw [if_neg (Nat.not_lt.mpr hge)]

/-- Witness for C2: an empty primary result against a text with one CORE
row adopts the local core list. -/
theorem C2_reconciler_witness :
    (reconcile ⟨[], [], []⟩
        (regexExtractCourses "CISAT CORE COURSES IST 302 Databases 4 Fall 2025".data)).core_courses =
      (organize
        (regexExtractCourses "CISAT CORE COURSES IST 302 Databases 4 Fall 2025".data)).core_courses :=
  ((C2_reconciler ⟨[], [], []⟩
      "CISAT CORE COURSES IST 302 Databases 4 Fall 2025".data).1 (by decide)).1.1 rfl

end Cisat

namespace Cisat

theorem pyStrip_nil : pyStrip [] = [] := rfl

/-- C3.  After reconciliation and field normalization, every record in
every section list has `completed = true` exactly when its
`semester_taken` value is present and non-empty after trimming. -/
theorem C3_completed_iff (result : PPResult) (markdown : List Char) (c : Course)
    (h : c ∈ (post_process_courses result markdown).core_courses ∨
      c ∈ (post_process_courses result markdown).concentration_courses ∨
      c ∈ (post_process_courses result markdown).elective_courses) :
    c.completed = true ↔ ∃ s, c.semester_taken = some s ∧ pyStrip s ≠ [] := by
  have hnc : ∃ c', c = normalizeCourse c' := by
    unfold post_process_courses at h
    rcases h with h | h | h <;>
    · rcases List.mem_map.mp h with ⟨c', -, hc⟩
      exact ⟨c', hc.symm⟩
  obtain ⟨c', rfl⟩ := hnc
  have hsem : (normalizeCourse c').semester_taken = c'.semester_taken := rfl
  have hcomp : (normalizeCourse c').completed =
      (!(c'.semester_taken.getD []).isEmpty &&
        !(pyStrip (c'.semester_taken.getD [])).isEmpty) := rfl
  rw [hcomp, hsem]
  cases hs : c'.semester_taken with
  | none => simp [pyStrip]
  | some s =>
    simp only [Option.getD_some, Option.some.injEq, Bool.and_eq_true, Bool.not_eq_true']
    constructor
    · rintro ⟨h1, h2⟩
      refine ⟨s, rfl, fun hnil => ?_⟩
      rw [hnil] at h2
      cases h2
    · rintro ⟨s', hs', hne⟩
      obtain rfl : s = s' := hs'
      constructor
      · cases hsn : s with
        | nil => exact absurd (hsn ▸ pyStrip_nil) hne
        | cons a l => rfl
      · cases hps : pyStrip s with
        | nil => exact absurd hps hne
        | cons a l => rfl

/-- The record the local extraction produces for the single row of
`CISAT CORE COURSES IST 302 Databases 4 Fall 2025`, used as a concrete
instance by several witnesses. -/
def sampleCoreCourse : Course :=
  { course_code := some "IST 302".data, course_title := some "Databases".data,
    course_name := some "Databases".data, units := some 4, credits := some 4,
    semester_taken := some "Fall 2025".data, notes := none,
    sec := some SKind.CORE, completed := true }

/-- Witness for C3 at a one-row text merged into an empty primary
result. -/
theorem C3_completed_iff_witness :
    sampleCoreCourse.completed = true ↔
      ∃ s, sampleCoreCourse.semester_taken = some s ∧ pyStrip s ≠ [] :=
  C3_completed_iff ⟨[], [], []⟩ "CISAT CORE COURSES IST 302 Databases 4 Fall 2025".data
    sampleCoreCourse (Or.inl (by decide))

end Cisat

namespace Cisat

/-- C5 (amended).  A partial-code candidate produces no record exactly when
its trimmed title occurs case-insensitively as a substring of the title of
some already-accepted record, **or** no section boundary lies strictly
before its position.  (The original claim omitted the second disjunct.) -/
theorem C5_partial_suppression (positions : List (Nat × SKind)) (courses : List Course)
    (pm : Nat × PartialM) :
    partialStep positions courses pm = courses ↔
      ((courses.any fun c =>
          containsSub (lowerStr (pyStrip pm.2.title)) (lowerStr (c.course_title.getD []))) = true ∨
        assignSection positions pm.1 = none) := by
  unfold partialStep
  split
  · rename_i hg
    simp [hg]
  · rename_i hg
    rw [Bool.not_eq_true] at hg
    cases ha : assignSection positions pm.1 with
    | none => simp [hg, ha]
    | some k =>
      simp only [hg, Bool.false_eq_true, false_or, ha, reduceCtorEq, iff_false]
      intro hcontra
      have := congrArg List.length hcontra
      simp at this

/-- C5 counterexample to the original claim: on a text with a partial-code
candidate but no section anchors, the candidate produces no record even
though there is no earlier accepted candidate at all (so its title is a
substring of no earlier title).  The original "if and only if" therefore
fails in the "only if" direction. -/
theorem C5_counterexample :
    (finditerPartial (cleanText "IST Deep Learning 4 Spring 2026".data)).length = 1 ∧
      sectionPositions (cleanText "IST Deep Learning 4 Spring 2026".data) = [] ∧
      fullCoursesOf (cleanText "IST Deep Learning 4 Spring 2026".data)
        (sectionPositions (cleanText "IST Deep Learning 4 Spring 2026".data)) = [] ∧
      ((finditerPartial (cleanText "IST Deep Learning 4 Spring 2026".data)).map fun pm =>
        assignSection (sectionPositions (cleanText "IST Deep Learning 4 Spring 2026".data)) pm.1) =
        [none] ∧
      regexExtractCourses "IST Deep Learning 4 Spring 2026".data = [] := by
  refine ⟨by decide, by decide, by decide, by decide, by decide⟩

end Cisat

namespace Cisat

theorem containsSub_refl (l : List Char) : containsSub l l = true := by
  cases l with
  | nil => rfl
  | cons c rest =>
    have h : (c :: rest).isPrefixOf (c :: rest) = true :=
      List.isPrefixOf_iff_prefix.mpr (List.prefix_refl _)
    simp [containsSub, h]

theorem partialStep_cases (P : List (Nat × SKind)) (cs : List Course) (pm : Nat × PartialM) :
    partialStep P cs pm = cs ∨
      ((cs.any fun c =>
          containsSub (lowerStr (pyStrip pm.2.title)) (lowerStr (c.course_title.getD []))) = false ∧
        ∃ k, partialStep P cs pm = cs ++ [mkPartialCourse pm k]) := by
  unfold partialStep
  split
  · exact Or.inl rfl
  · rename_i hg
    rw [Bool.not_eq_true] at hg
    cases ha : assignSection P pm.1 with
    | none => exact Or.inl rfl
    | some k => exact Or.inr ⟨hg, k, rfl⟩

theorem foldl_partialStep_extends {P : List (Nat × SKind)} :
    ∀ (ms : List (Nat × PartialM)) (cs0 : List Course),
      ∃ new, ms.foldl (partialStep P) cs0 = cs0 ++ new := by
  intro ms
  induction ms with
  | nil => intro cs0; exact ⟨[], (List.append_nil cs0).symm⟩
  | cons pm ms ih =>
    intro cs0
    simp only [List.foldl_cons]
    rcases partialStep_cases P cs0 pm with h | ⟨-, k, h⟩
    · rw [h]; exact ih cs0
    · rw [h]
      obtain ⟨new, hnew⟩ := ih (cs0 ++ [mkPartialCourse pm k])
      exact ⟨[mkPartialCourse pm k] ++ new, by rw [hnew, List.append_assoc]⟩

/-- Any record the partial-code loop appends beyond the initial `cs0` has a
title that is not a case-insensitive substring of the title of any record
before it — the suppression guard was checked against the whole list
accumulated so far. -/
theorem foldl_partialStep_noDup {P : List (Nat × SKind)} :
    ∀ (ms : List (Nat × PartialM)) (cs0 : List Course) (i j : Nat) (ci cj : Course),
      cs0.length ≤ j → i < j →
      (ms.foldl (partialStep P) cs0)[i]? = some ci →
      (ms.foldl (partialStep P) cs0)[j]? = some cj →
      containsSub (lowerStr (cj.course_title.getD []))
        (lowerStr (ci.course_title.getD [])) = false := by
  intro ms
  induction ms with
  | nil =>
    intro cs0 i j ci cj hj hij hi hjj
    rw [List.foldl_nil, List.getElem?_eq_none hj] at hjj
    cases hjj
  | cons pm ms ih =>
    intro cs0 i j ci cj hj hij hi hjj
    simp only [List.foldl_cons] at hi hjj
    rcases partialStep_cases P cs0 pm with hstep | ⟨hguard, k, hstep⟩
    · rw [hstep] at hi hjj
      exact ih cs0 i j ci cj hj hij hi hjj
    · rw [hstep] at hi hjj
      by_cases hj2 : (cs0 ++ [mkPartialCourse pm k]).length ≤ j
      · exact ih _ i j ci cj hj2 hij hi hjj
      · have hjlen : j = cs0.length := by
          simp only [List.length_append, List.length_singleton] at hj2
          omega
        obtain ⟨new, hnew⟩ := foldl_partialStep_extends ms (cs0 ++ [mkPartialCourse pm k])
        rw [hnew] at hi hjj
        have hcj : cj = mkPartialCourse pm k := by
          rw [List.append_assoc, hjlen,
            List.getElem?_append_right (Nat.le_refl _)] at hjj
          simpa using hjj.symm
        have hci : ci ∈ cs0 := by
          have hilt : i < cs0.length := by omega
          rw [List.append_assoc, List.getElem?_append_left hilt] at hi
          exact List.getElem?_mem hi
        subst hcj
        have hall := List.any_eq_false.mp hguard ci hci
        have htitle : (mkPartialCourse pm k).course_title.getD [] = pyStrip pm.2.title := rfl
        rw [htitle]
        simpa using hall

/-- C4 (amended).  Records appended by the partial-code loop (the entries
of the extraction list at indices past the full-code records) never share
a case-normalized title with **any** earlier record — indeed their title
is not even a substring of an earlier title.  Two full-code records,
however, may share a title (see the counterexample). -/
theorem C4_partial_title_unique (markdown : List Char) (i j : Nat) (ci cj : Course)
    (hk : (fullCoursesOf (cleanText markdown) (sectionPositions (cleanText markdown))).length ≤ j)
    (hij : i < j)
    (hi : (regexExtractCourses markdown)[i]? = some ci)
    (hj : (regexExtractCourses markdown)[j]? = some cj) :
    containsSub (lowerStr (cj.course_title.getD []))
        (lowerStr (ci.course_title.getD [])) = false ∧
      lowerStr (cj.course_title.getD []) ≠ lowerStr (ci.course_title.getD []) := by
  have hmain := foldl_partialStep_noDup (finditerPartial (cleanText markdown))
    (fullCoursesOf (cleanText markdown) (sectionPositions (cleanText markdown)))
    i j ci cj hk hij hi hj
  refine ⟨hmain, fun heq => ?_⟩
  rw [heq, containsSub_refl] at hmain
  cases hmain

/-- C4 counterexample to the original claim: two full-code rows with the
same title in the same (CORE) section both become records, so two records
of one section list share a case-normalized title. -/
theorem C4_counterexample :
    ((organize (regexExtractCourses
        "CISAT CORE COURSES IST 302 Databases 4 Fall 2025 IST 303 Databases 4 Spring 2026".data)).core_courses.map
      fun c => c.course_code) = [some "IST 302".data, some "IST 303".data] ∧
    ((organize (regexExtractCourses
        "CISAT CORE COURSES IST 302 Databases 4 Fall 2025 IST 303 Databases 4 Spring 2026".data)).core_courses.map
      fun c => lowerStr (c.course_title.getD [])) =
      ["databases".data, "databases".data] :=
  ⟨by decide, by decide⟩

end Cisat

namespace Cisat

/-- The record the local extraction produces for the partial-code row
`IST Deep Learning 4 Spring 2026` in the CONCENTRATION section. -/
def samplePartialCourse : Course :=
  { course_code := some "IST".data, course_title := some "Deep Learning".data,
    course_name := some "Deep Learning".data, units := some 4, credits := some 4,
    semester_taken := some "Spring 2026".data, notes := none,
    sec := some SKind.CONCENTRATION, completed := true }

/-- Witness for C4 (amended): on a text with one full-code CORE row and one
partial-code CONCENTRATION row, the partial record's title is unrelated to
the earlier full record's title. -/
theorem C4_partial_title_unique_witness :
    containsSub (lowerStr (samplePartialCourse.course_title.getD []))
        (lowerStr (sampleCoreCourse.course_title.getD [])) = false ∧
      lowerStr (samplePartialCourse.course_title.getD []) ≠
        lowerStr (sampleCoreCourse.course_title.getD []) :=
  C4_partial_title_unique
    "CISAT CORE COURSES IST 302 Databases 4 Fall 2025 CONCENTRATION COURSE IST Deep Learning 4 Spring 2026".data
    0 1 sampleCoreCourse samplePartialCourse (by decide) (by decide) (by decide) (by decide)

end Cisat

namespace Cisat

/-- Every extracted record carries one of the three section kinds. -/
theorem regexExtract_sec {markdown : List Char} {c : Course}
    (h : c ∈ regexExtractCourses markdown) : ∃ k, c.sec = some k := by
  rcases regexExtract_mem h with ⟨pm, k, -, he⟩ | ⟨pm, k, -, he⟩ <;>
    exact ⟨k, by rw [he]; rfl⟩

/-- A list of records each carrying a section kind is a permutation of its
three section filters concatenated. -/
theorem perm_filter_three :
    ∀ {l : List Course}, (∀ c ∈ l, ∃ k, c.sec = some k) →
      l.Perm ((l.filter fun c => c.sec = some SKind.CORE) ++
        ((l.filter fun c => c.sec = some SKind.CONCENTRATION) ++
          (l.filter fun c => c.sec = some SKind.ELECTIVE))) := by
  intro l
  induction l with
  | nil => intro _; exact List.Perm.refl []
  | cons c l ih =>
    intro h
    obtain ⟨k, hk⟩ := h c (List.mem_cons_self _ _)
    have hl := ih fun c' hc' => h c' (List.mem_cons_of_mem _ hc')
    cases k with
    | CORE =>
      rw [List.filter_cons_of_pos (by simp [hk]),
        List.filter_cons_of_neg (by simp [hk]),
        List.filter_cons_of_neg (by simp [hk])]
      exact hl.cons c
    | CONCENTRATION =>
      rw [List.filter_cons_of_neg (by simp [hk]),
        List.filter_cons_of_pos (by simp [hk]),
        List.filter_cons_of_neg (by simp [hk])]
      exact (hl.cons c).trans List.perm_middle.symm
    | ELECTIVE =>
      rw [List.filter_cons_of_neg (by simp [hk]),
        List.filter_cons_of_neg (by simp [hk]),
        List.filter_cons_of_pos (by simp [hk])]
      refine (hl.cons c).trans ?_
      rw [← List.append_assoc, ← List.append_assoc]
      exact List.perm_middle.symm

/-- C6 (amended).  The three section lists of the returned result are the
section filters of the flattened `courses` list, and the flattened list is
a permutation of their concatenation in CORE, CONCENTRATION, ELECTIVE
order; the flattened list itself, however, is in match order, not in
section-block order (see the counterexample). -/
theorem C6_flattened_permutation (markdown : List Char) :
    ((organize (regexExtractCourses markdown)).core_courses =
        (organize (regexExtractCourses markdown)).courses.filter
          (fun c => c.sec = some SKind.CORE) ∧
      (organize (regexExtractCourses markdown)).concentration_courses =
        (organize (regexExtractCourses markdown)).courses.filter
          (fun c => c.sec = some SKind.CONCENTRATION) ∧
      (organize (regexExtractCourses markdown)).elective_courses =
        (organize (regexExtractCourses markdown)).courses.filter
          (fun c => c.sec = some SKind.ELECTIVE)) ∧
    (organize (regexExtractCourses markdown)).courses.Perm
      ((organize (regexExtractCourses markdown)).core_courses ++
        ((organize (regexExtractCourses markdown)).concentration_courses ++
          (organize (regexExtractCourses markdown)).elective_courses)) :=
  ⟨⟨rfl, rfl, rfl⟩, perm_filter_three fun _ hc => regexExtract_sec hc⟩

/-- C6 counterexample to the original claim: when the CONCENTRATION anchor
precedes the CORE anchor in the text, the flattened list is in match order
(CONCENTRATION record first), not the concatenation of the section lists
in CORE, CONCENTRATION, ELECTIVE order. -/
theorem C6_counterexample :
    (organize (regexExtractCourses
        "CONCENTRATION COURSE IST 410 Analytics 4 Spring 2026 CISAT CORE COURSES IST 302 Databases 4 Fall 2025".data)).courses ≠
      (organize (regexExtractCourses
          "CONCENTRATION COURSE IST 410 Analytics 4 Spring 2026 CISAT CORE COURSES IST 302 Databases 4 Fall 2025".data)).core_courses ++
        (organize (regexExtractCourses
            "CONCENTRATION COURSE IST 410 Analytics 4 Spring 2026 CISAT CORE COURSES IST 302 Databases 4 Fall 2025".data)).concentration_courses ++
        (organize (regexExtractCourses
            "CONCENTRATION COURSE IST 410 Analytics 4 Spring 2026 CISAT CORE COURSES IST 302 Databases 4 Fall 2025".data)).elective_courses := by
  decide

end Cisat

namespace Cisat

/-- C7 (amended).  A span matched by the full-code pattern always consists
of a department code of 2–4 **letters of either case**, a 3-digit course
number, a single-digit units field, and a case variant of `Fall`/`Spring`
followed by a 4-digit year: `re.IGNORECASE` is applied to the whole
pattern, so case-insensitivity is not limited to the season word. -/
theorem C7_full_pattern_shape (prevWord : Bool) (l : List Char) (m : FullM)
    (h : matchFullAt prevWord l = some m) :
    (2 ≤ m.dept.length ∧ m.dept.length ≤ 4 ∧ ∀ c ∈ m.dept, isAlpha c = true) ∧
      (m.num.length = 3 ∧ ∀ c ∈ m.num, isDigit c = true) ∧
      isDigit m.unitsChar = true ∧
      (lowerStr m.season = "fall".data ∨ lowerStr m.season = "spring".data) ∧
      m.year.length = 4 ∧ ∀ c ∈ m.year, isDigit c = true :=
  matchFullAt_sat h

/-- Witness for C7 (amended) at the span `AB 123 C 4 Fall 2025`. -/
theorem C7_full_pattern_shape_witness :
    (2 ≤ ("AB".data : List Char).length ∧ ("AB".data : List Char).length ≤ 4 ∧
        ∀ c ∈ ("AB".data : List Char), isAlpha c = true) ∧
      (("123".data : List Char).length = 3 ∧ ∀ c ∈ ("123".data : List Char), isDigit c = true) ∧
      isDigit '4' = true ∧
      (lowerStr "Fall".data = "fall".data ∨ lowerStr "Fall".data = "spring".data) ∧
      ("2025".data : List Char).length = 4 ∧ ∀ c ∈ ("2025".data : List Char), isDigit c = true :=
  C7_full_pattern_shape false "AB 123 C 4 Fall 2025".data
    { dept := "AB".data, num := "123".data, title := "C".data, unitsChar := '4',
      season := "Fall".data, year := "2025".data, consumed := "AB 123 C 4 Fall 2025".data }
    (by decide)

/-- C7 counterexample to the original claim: under `re.IGNORECASE` the
department class `[A-Z]{2,4}` also matches lowercase letters, so the
lowercase row `ist 302 ...` is matched (and extracted, the lowercase anchor
also matching), with a department code that is not uppercase. -/
theorem C7_counterexample :
    ((finditerFull (cleanText "cisat core courses ist 302 Databases 4 Fall 2025".data)).map
        fun pm => pm.2.dept) = ["ist".data] ∧
      isUpper 'i' = false ∧
      ((regexExtractCourses "cisat core courses ist 302 Databases 4 Fall 2025".data).map
        fun c => c.course_code) = [some "ist 302".data] :=
  ⟨by decide, by decide, by decide⟩

end Cisat

namespace Cisat

/-- C9.  The local extraction is a total function of the text: an error
comes out of `extract_courses` only when the upstream text producer failed
(and is then re-wrapped), every present text produces a result, and a text
in which no section anchor is found — in particular the empty text — yields
a result with all section lists empty rather than an error. -/
theorem C9_total_and_empty :
    (∀ e, extract_courses (Except.error e) =
      Except.error ("Failed to extract courses: ".data ++ e)) ∧
    (∀ markdown, extract_courses (Except.ok markdown) =
      Except.ok (organize (regexExtractCourses markdown))) ∧
    (∀ markdown, sectionPositions (cleanText markdown) = [] →
      organize (regexExtractCourses markdown) = ⟨[], [], [], []⟩) ∧
    extract_courses (Except.ok "".data) = Except.ok ⟨[], [], [], []⟩ := by
  refine ⟨fun e => rfl, fun markdown => rfl, ?_, rfl⟩
  intro markdown hpos
  simp only [regexExtractCourses]
  rw [hpos]
  have h1 : fullCoursesOf (cleanText markdown) [] = [] := by
    apply List.filterMap_eq_nil_iff.mpr
    intro pm _
    rfl
  rw [h1]
  have h2 : ∀ ms : List (Nat × PartialM), ms.foldl (partialStep []) [] = [] := by
    intro ms
    induction ms with
    | nil => rfl
    | cons pm ms ih =>
      rw [List.foldl_cons, show partialStep [] [] pm = [] from rfl]
      exact ih
  rw [h2]
  rfl

/-- Witness for C9: a text containing a course row but no section anchor
yields the all-empty result. -/
theorem C9_total_and_empty_witness :
    organize (regexExtractCourses "IST 302 Databases 4 Fall 2025".data) = ⟨[], [], [], []⟩ :=
  C9_total_and_empty.2.2.1 "IST 302 Databases 4 Fall 2025".data (by decide)

/-- Witness for C10 at a one-row CORE text. -/
theorem C10_local_record_shape_witness :
    sampleCoreCourse.completed = true ∧
      (∃ u, sampleCoreCourse.units = some u ∧ u ≤ 9) ∧
      ∃ s y, sampleCoreCourse.semester_taken = some (s ++ ' ' :: y) ∧
        (lowerStr s = "fall".data ∨ lowerStr s = "spring".data) ∧
        y.length = 4 ∧ ∀ ch ∈ y, isDigit ch = true :=
  C10_local_record_shape "CISAT CORE COURSES IST 302 Databases 4 Fall 2025".data
    sampleCoreCourse (by decide)

end Cisat

namespace Cisat

theorem matchNotesAt_nil (sem : List Char) : matchNotesAt sem [] = none := by
  cases sem <;> rfl

/-- A successful notes-pattern attempt found the semester text (again,
case-insensitively) at the head of its suffix, and its captured group
starts with `PR:`. -/
theorem matchNotesAt_sound {sem l g : List Char} (h : matchNotesAt sem l = some g) :
    (lowerStr sem <+: lowerStr l) ∧ "pr:".data <+: lowerStr g := by
  simp only [matchNotesAt, Option.bind_eq_some] at h
  obtain ⟨sm, hsm, w, hw, gg, hgg, hg⟩ := h
  cases hg
  refine ⟨parseLitCi_starts hsm, ?_⟩
  simp only [parseNotesGroup, Option.bind_eq_some] at hgg
  obtain ⟨pr, hpr, term, hterm, hfin⟩ := hgg
  cases hfin
  have hlow : lowerStr pr.1 = lowerStr "PR:".data := (parseLitCi_sound hpr).1
  have hprlow : lowerStr "PR:".data = "pr:".data := by decide
  refine ⟨lowerStr ((pr.2.takeWhile fun c => !isAlpha c) ++ term.1), ?_⟩
  simp only [lowerStr] at *
  simp [List.map_append, hlow, hprlow]

theorem searchNotes_isSome (sem : List Char) :
    ∀ l : List Char, (searchNotes sem l).isSome = true ↔
      ∃ i, (matchNotesAt sem (l.drop i)).isSome = true := by
  intro l
  induction l with
  | nil =>
    simp only [searchNotes, Option.isSome_none, Bool.false_eq_true, false_iff]
    rintro ⟨i, hi⟩
    rw [List.drop_nil, matchNotesAt_nil] at hi
    cases hi
  | cons c rest ih =>
    cases hm : matchNotesAt sem (c :: rest) with
    | some g =>
      simp only [searchNotes, hm, Option.isSome_some, true_iff]
      exact ⟨0, by rw [List.drop_zero, hm]; rfl⟩
    | none =>
      simp only [searchNotes, hm]
      rw [ih]
      constructor
      · rintro ⟨i, hi⟩
        exact ⟨i + 1, by simpa using hi⟩
      · rintro ⟨i, hi⟩
        cases i with
        | zero =>
          rw [List.drop_zero, hm] at hi
          cases hi
        | succ i => exact ⟨i, by simpa using hi⟩

theorem searchNotes_sound {sem : List Char} :
    ∀ {l g : List Char}, searchNotes sem l = some g →
      ∃ i, matchNotesAt sem (l.drop i) = some g := by
  intro l
  induction l with
  | nil => intro g h; cases h
  | cons c rest ih =>
    intro g h
    cases hm : matchNotesAt sem (c :: rest) with
    | some g' =>
      simp only [searchNotes, hm] at h
      cases h
      exact ⟨0, by rw [List.drop_zero]; exact hm⟩
    | none =>
      simp only [searchNotes, hm] at h
      obtain ⟨i, hi⟩ := ih h
      exact ⟨i + 1, by simpa using hi⟩

/-- C8 (amended).  A notes value is produced for a full-code match if and
only if the 100-character window after the match contains a span matching
`{semester}\s+(PR:[^A-Z]*(?:[A-Z]{2,4}\s+\d{3}|CHECKLIST))` — in
particular the semester text must occur *again* inside the window (the
window starts after the semester that ended the match), and the annotation
body may contain no letters before its terminator.  When produced, the
stored value is the captured group (which begins with `PR:`), stripped and
with everything from a trailing whitespace-then-`IST`-or-`CHECKLIST`
removed. -/
theorem C8_notes_behavior (text : List Char) (e : Nat) (sem : List Char) :
    ((notesFor text e sem).isSome = true ↔
      ∃ i, (matchNotesAt sem (((text.drop e).take 100).drop i)).isSome = true) ∧
    ∀ n, notesFor text e sem = some n →
      ∃ g, searchNotes sem ((text.drop e).take 100) = some g ∧
        (∃ i, lowerStr sem <+: lowerStr (((text.drop e).take 100).drop i)) ∧
        "pr:".data <+: lowerStr g ∧
        n = if (pyStrip g).isEmpty then pyStrip g else pyStrip (trimNotes (pyStrip g)) := by
  constructor
  · cases hs : searchNotes sem ((text.drop e).take 100) with
    | none =>
      rw [← searchNotes_isSome sem ((text.drop e).take 100), hs]
      simp only [notesFor, hs, Option.isSome_none]
    | some g =>
      rw [← searchNotes_isSome sem ((text.drop e).take 100), hs]
      simp only [notesFor, hs, Option.isSome_some, true_iff]
      split <;> simp
  · intro n hn
    cases hs : searchNotes sem ((text.drop e).take 100) with
    | none => simp only [notesFor, hs] at hn; cases hn
    | some g =>
      simp only [notesFor, hs] at hn
      obtain ⟨i, hmat⟩ := searchNotes_sound hs
      obtain ⟨hsem, hpr⟩ := matchNotesAt_sound hmat
      refine ⟨g, rfl, ⟨i, hsem⟩, hpr, ?_⟩
      split at hn <;> (cases hn; rename_i hsplit; simp [hsplit])
  
/-- Witness for C8 (amended) at a text whose window does repeat the
semester before the annotation. -/
theorem C8_notes_behavior_witness :
    ∃ g, searchNotes "Fall 2025".data
        (((cleanText "CISAT CORE COURSES IST 302 Databases 4 Fall 2025 Fall 2025 PR: 101 CHECKLIST".data).drop 48).take 100) =
        some g ∧
      (∃ i, lowerStr "Fall 2025".data <+:
        lowerStr ((((cleanText "CISAT CORE COURSES IST 302 Databases 4 Fall 2025 Fall 2025 PR: 101 CHECKLIST".data).drop 48).take 100).drop i)) ∧
      "pr:".data <+: lowerStr g ∧
      "PR: 101".data =
        if (pyStrip g).isEmpty then pyStrip g else pyStrip (trimNotes (pyStrip g)) :=
  (C8_notes_behavior
      (cleanText "CISAT CORE COURSES IST 302 Databases 4 Fall 2025 Fall 2025 PR: 101 CHECKLIST".data)
      48 "Fall 2025".data).2 "PR: 101".data (by decide)

/-- C8 counterexample to the original claim: the window after the match
contains a `PR:` annotation terminated by `CHECKLIST`, yet no notes value
is produced — the pattern requires the semester text to occur again in the
window (and the annotation body here also contains letters, which
`[^A-Z]*` under `re.IGNORECASE` does not admit). -/
theorem C8_counterexample :
    ((regexExtractCourses
        "CISAT CORE COURSES IST 302 Databases 4 Fall 2025 PR: SQL CHECKLIST".data).map
      fun c => c.notes) = [none] ∧
      containsSub "PR: SQL CHECKLIST".data
        (((cleanText "CISAT CORE COURSES IST 302 Databases 4 Fall 2025 PR: SQL CHECKLIST".data).drop 48).take 100) = true :=
  ⟨by decide, by decide⟩

end Cisat
